import Mathlib

/-
  Verification of the corpus-scheduling and coverage-feedback core of
  dracuxan/LibAFL, shallowly embedded from:
    src/afl/src/feedbacks/mod.rs               (MapFeedback, Max/MinReducer)
    src/libafl/src/schedulers/mod.rs           (AflScheduler hooks, RandScheduler)
    src/libafl/src/schedulers/probabilistic_sampling.rs
                                               (ProbabilitySamplingScheduler)

  Cell values of coverage/history maps are modelled as `ℤ` (the source is
  generic over an integer type `T`), f64 scores and probabilities as `ℚ`
  (exact arithmetic), corpus ids as `ℕ`, and the hashbrown `HashMap` of
  `ProbabilityMetadata` as an association list in iteration order.
  Rust panics (`unwrap` on `None`, out-of-bounds indexing) are modelled as
  `Option.none` / `Except.error` or an explicit `panicked` result.
-/

/-! ## Reducers (src/afl/src/feedbacks/mod.rs, `MaxReducer` / `MinReducer`) -/

/-- Embeds `MaxReducer::reduce`: `if first > second { first } else { second }`. -/
def maxReduce (first second : ℤ) : ℤ :=
  if first > second then first else second

/-- Embeds `MinReducer::reduce`: `if first < second { first } else { second }`. -/
def minReduce (first second : ℤ) : ℤ :=
  if first < second then first else second

/-! ## MapFeedback::is_interesting

The source loops `for i in 0..observer.map().len()`, reading
`self.history_map[i]` (a Rust panic when out of bounds, modelled as `none`),
computing `reduced = R::reduce(history, item)` and, when
`history != reduced`, writing `history_map[i] = reduced` and incrementing
the `interesting` counter.  Since iteration `i` touches only index `i` of
both sequences, the loop is embedded as simultaneous structural recursion:
the observation drives the iteration count, exactly as in the source
(`size = observer.map().len()`).  No length check is present in the
source, so a shorter observation processes only a prefix of the history
map and a longer one hits the out-of-bounds panic. -/

/-- Embeds `MapFeedback::is_interesting`: given the reducer `R`, the current
`history_map` and the observation located by the feedback's name, returns
the novelty count and the updated history map; `none` models the
index-out-of-bounds panic when the observation is longer than the history
map. -/
def isInteresting (R : ℤ → ℤ → ℤ) : List ℤ → List ℤ → Option (ℕ × List ℤ)
  | hist, [] => some (0, hist)
  | [], _ :: _ => none
  | history :: hs, item :: os =>
    match isInteresting R hs os with
    | none => none
    | some (interesting, rest) =>
      let reduced := R history item
      if history ≠ reduced then some (interesting + 1, reduced :: rest)
      else some (interesting, history :: rest)

/-- The updated history map produced by one `is_interesting` pass: every
cell covered by the observation holds the reduced value (cells where the
reduced value equals the old one are left unchanged by the code, but there
the reduced value coincides with the old one), cells beyond the
observation are untouched. -/
def updHist (R : ℤ → ℤ → ℤ) : List ℤ → List ℤ → List ℤ
  | hist, [] => hist
  | [], _ :: _ => []
  | history :: hs, item :: os => R history item :: updHist R hs os

/-- The number of cells whose reduced value differs from the stored
history value. -/
def countNovel (R : ℤ → ℤ → ℤ) (hist obs : List ℤ) : ℕ :=
  (hist.zip obs).countP fun p => decide (R p.1 p.2 ≠ p.1)

/-- Runs `is_interesting` over a sequence of observations, threading the
history map through (the per-call novelty counts are discarded). -/
def runFeedback (R : ℤ → ℤ → ℤ) : List ℤ → List (List ℤ) → Option (List ℤ)
  | hist, [] => some hist
  | hist, o :: os =>
    match isInteresting R hist o with
    | none => none
    | some (_, hist') => runFeedback R hist' os

/-! ## Association lists standing for the hashbrown `HashMap` and for the
per-testcase stores reached by keyed lookup.  The list order is the map's
iteration order; `insert` overwrites in place when the key is present and
appends otherwise, `remove` drops the (unique) entry of a key. -/

/-- Looks a key up in an association list. -/
def alLookup {α : Type} (id : ℕ) : List (ℕ × α) → Option α
  | [] => none
  | (k, v) :: t => if k = id then some v else alLookup id t

/-- Inserts/overwrites a key in an association list. -/
def alInsert {α : Type} (id : ℕ) (v : α) : List (ℕ × α) → List (ℕ × α)
  | [] => [(id, v)]
  | (k, w) :: t => if k = id then (k, v) :: t else (k, w) :: alInsert id v t

/-- Removes the first entry of a key from an association list. -/
def alRemove {α : Type} (id : ℕ) : List (ℕ × α) → List (ℕ × α)
  | [] => []
  | (k, w) :: t => if k = id then t else (k, w) :: alRemove id t

/-- The keys of an association list. -/
def alKeys {α : Type} (l : List (ℕ × α)) : List ℕ := l.map Prod.fst

/-! ## ProbabilitySamplingScheduler
(src/libafl/src/schedulers/probabilistic_sampling.rs) -/

/-- Embeds `ProbabilityMetadata`: corpus id → probability, plus the running
total. -/
structure ProbabilityMetadata where
  map : List (ℕ × ℚ)
  total_probability : ℚ
deriving DecidableEq

/-- The sum of the probability values stored in the map. -/
def sumVals (l : List (ℕ × ℚ)) : ℚ := (l.map Prod.snd).sum

/-- Embeds `ProbabilitySamplingScheduler::store_probability` with the score
`prob` already computed by `TestcaseScore`.  The source guards `prob` only
with `debug_assert!(prob >= 0.0 && prob.is_finite())`, which is compiled
out of release builds, so no check appears here:
`meta.map.insert(id, prob); meta.total_probability += prob;`. -/
def store_probability (meta : ProbabilityMetadata) (id : ℕ) (prob : ℚ) :
    ProbabilityMetadata :=
  { map := alInsert id prob meta.map
    total_probability := meta.total_probability + prob }

/-- Embeds the metadata update of `RemovableScheduler::on_remove`: if the
map contains the id, remove it and subtract its value from the total;
a missing id is a no-op (`if let Some(prob) = meta.map.remove(&id)`). -/
def onRemoveMeta (meta : ProbabilityMetadata) (id : ℕ) : ProbabilityMetadata :=
  match alLookup id meta.map with
  | some prob =>
    { map := alRemove id meta.map
      total_probability := meta.total_probability - prob }
  | none => meta

/-- The metadata-level operations of the probability scheduler. -/
inductive POp where
  | add (id : ℕ) (score : ℚ)
  | remove (id : ℕ)
  | replace (id : ℕ) (score : ℚ)
deriving DecidableEq

/-- Applies one operation to `ProbabilityMetadata`: `on_add` stores the
computed score, `on_remove` is `onRemoveMeta`, and `on_replace` performs
the removal step and then re-runs the `store_probability` logic, exactly
as in the source. -/
def applyOp (meta : ProbabilityMetadata) : POp → ProbabilityMetadata
  | POp.add id score => store_probability meta id score
  | POp.remove id => onRemoveMeta meta id
  | POp.replace id score => store_probability (onRemoveMeta meta id) id score

/-- Applies a sequence of operations. -/
def applyOps (meta : ProbabilityMetadata) (ops : List POp) : ProbabilityMetadata :=
  ops.foldl applyOp meta

/-- Checks that every `add` in the sequence targets an id not currently in
the map (the free shape of the engine's use, where `on_add` is invoked
once per fresh corpus id). -/
def addsFresh (meta : ProbabilityMetadata) : List POp → Bool
  | [] => true
  | op :: ops =>
    (match op with
     | POp.add id _ => (alLookup id meta.map).isNone
     | _ => true) && addsFresh (applyOp meta op) ops

/-- Outcome of a `next()` call: a scheduled id, the `Empty` error, or a
Rust panic (`unwrap` of `None`). -/
inductive NextOut where
  | ok (id : ℕ)
  | empty
  | panicked
deriving DecidableEq

/-- Campaign state seen by `ProbabilitySamplingScheduler`: the corpus ids,
the optional `ProbabilityMetadata` entry of the metadata bag, the
currently scheduled id, and the RNG, modelled as a seed-determined stream
`rngVals` of draws in `[0,1)` together with a position (`next_float`
returns `rngVals rngIdx` and advances the position). -/
structure ProbState where
  corpus : List ℕ
  meta : Option ProbabilityMetadata
  current : Option ℕ
  rngVals : ℕ → ℚ
  rngIdx : ℕ

/-- The running sum of the first `n` probabilities of the map. -/
def sumTo (entries : List (ℕ × ℚ)) (n : ℕ) : ℚ :=
  ((entries.take n).map Prod.snd).sum

/-- Embeds the selection loop of `next()`: starting from accumulator `k`,
walk the map in iteration order, add each probability, and return the
first id whose running sum reaches the threshold; if none does, return
`fallback` (initialised by the source to the last key of the map). -/
def chooseId (fallback : ℕ) (threshold : ℚ) : ℚ → List (ℕ × ℚ) → ℕ
  | _, [] => fallback
  | k, (idx, prob) :: rest =>
    let next := k + prob
    if next ≥ threshold then idx else chooseId fallback threshold next rest

/-- Embeds `ProbabilitySamplingScheduler::next`.  Empty corpus yields the
`Empty` error.  Otherwise the code draws `next_float`, unwraps the
`ProbabilityMetadata` entry (panic when absent), unwraps the last key of
the map (panic when the map is empty), runs the selection loop against
`threshold = total_probability * rand_prob`, and stores the returned id
as the currently scheduled one via `set_current_scheduled`. -/
def nextProb (s : ProbState) : NextOut × ProbState :=
  if s.corpus.length = 0 then (NextOut.empty, s)
  else
    let rand_prob := s.rngVals s.rngIdx
    let s1 : ProbState := { s with rngIdx := s.rngIdx + 1 }
    match s.meta with
    | none => (NextOut.panicked, s1)
    | some meta =>
      match meta.map.getLast? with
      | none => (NextOut.panicked, s1)
      | some lastEntry =>
        let threshold := meta.total_probability * rand_prob
        let ret := chooseId lastEntry.1 threshold 0 meta.map
        (NextOut.ok ret, { s1 with current := some ret })

/-- Engine-level calls driving `ProbabilitySamplingScheduler` within one
campaign: corpus add + `on_add`, corpus remove + `on_remove`,
`on_replace`, and `next`. -/
inductive EngOp where
  | add (id : ℕ) (score : ℚ)
  | remove (id : ℕ)
  | replace (id : ℕ) (score : ℚ)
  | next

/-- One engine step of the probability scheduler.  `on_add` creates the
metadata entry when absent and then runs `store_probability`; `on_remove`
and `on_replace` `unwrap` the metadata entry (panic, `none`, when
absent); `next` is `nextProb` with its panic propagated. -/
def engStep (s : ProbState) : EngOp → Option (Option NextOut × ProbState)
  | EngOp.add id score =>
    let s' : ProbState := { s with corpus := s.corpus ++ [id] }
    let meta0 := match s'.meta with
      | none => ProbabilityMetadata.mk [] 0
      | some m => m
    some (none, { s' with meta := some (store_probability meta0 id score) })
  | EngOp.remove id =>
    match s.meta with
    | none => none
    | some m =>
      some (none, { s with corpus := s.corpus.erase id
                           meta := some (onRemoveMeta m id) })
  | EngOp.replace id score =>
    match s.meta with
    | none => none
    | some m =>
      some (none, { s with meta := some (store_probability (onRemoveMeta m id) id score) })
  | EngOp.next =>
    match nextProb s with
    | (NextOut.panicked, _) => none
    | (r, s') => some (some r, s')

/-- Runs a sequence of engine calls and collects the outcomes of the
`next()` calls; a panic aborts the run. -/
def runProb (s : ProbState) : List EngOp → List NextOut
  | [] => []
  | op :: ops =>
    match engStep s op with
    | none => []
    | some (some r, s') => r :: runProb s' ops
    | some (none, s') => runProb s' ops

/-! ## RandScheduler (src/libafl/src/schedulers/mod.rs) -/

/-- Campaign state seen by `RandScheduler`, with the integer RNG modelled
as a seed-determined stream plus position. -/
structure RandState where
  corpus : List ℕ
  current : Option ℕ
  rngVals : ℕ → ℕ
  rngIdx : ℕ

/-- Embeds `RandScheduler::next`: empty corpus yields the `Empty` error,
otherwise a uniformly random corpus id is drawn and stored as current.
The draw itself (`random_corpus_id!`) lives in libafl_bolts, outside
src/; modelled from the spec: `Rand::below(n)` returns a uniform integer
below `n`, used as a position into the corpus ids. -/
def randNext (s : RandState) : NextOut × RandState :=
  if s.corpus.length = 0 then (NextOut.empty, s)
  else
    let j := s.rngVals s.rngIdx % s.corpus.length
    let id := s.corpus.getD j 0
    (NextOut.ok id, { s with rngIdx := s.rngIdx + 1, current := some id })

/-- Engine-level calls driving `RandScheduler` (its `on_add` only links
the parent; `on_remove` is the default no-op, so corpus membership is the
whole relevant state). -/
inductive RandOp where
  | add (id : ℕ)
  | remove (id : ℕ)
  | next

/-- Runs a sequence of engine calls against `RandScheduler`, collecting
the outcomes of the `next()` calls. -/
def runRand (s : RandState) : List RandOp → List NextOut
  | [] => []
  | RandOp.add id :: ops => runRand { s with corpus := s.corpus ++ [id] } ops
  | RandOp.remove id :: ops => runRand { s with corpus := s.corpus.erase id } ops
  | RandOp.next :: ops =>
    let r := randNext s
    r.1 :: runRand r.2 ops

/-! ## AflScheduler::on_add_metadata (src/libafl/src/schedulers/mod.rs) -/

/-- Embeds `SchedulerTestcaseMetadata` (depth, handicap, n_fuzz_entry). -/
structure TestcaseMeta where
  depth : ℕ
  handicap : ℕ
  n_fuzz_entry : ℕ
deriving DecidableEq

/-- Modelled from the spec: `SchedulerTestcaseMetadata::with_n_fuzz_entry`
is defined in `corpus/testcase.rs`, which is not under src/; the spec
states that `on_add` attaches `SchedulerTestcaseMetadata { depth,
handicap = 0, n_fuzz_entry = last_hash }`. -/
def withNFuzzEntry (depth : ℕ) (n_fuzz_entry : ℕ) : TestcaseMeta :=
  { depth := depth, handicap := 0, n_fuzz_entry := n_fuzz_entry }

/-- The slice of a `Testcase` the AFL hooks touch: the attached
`SchedulerTestcaseMetadata` (absent until `on_add`) and the parent id. -/
structure TestcaseState where
  schedMeta : Option TestcaseMeta
  parent : Option ℕ
deriving DecidableEq

/-- Campaign state seen by `on_add_metadata`: the currently scheduled id
and the testcases reachable by corpus id. -/
structure AflState where
  current : Option ℕ
  testcases : List (ℕ × TestcaseState)
deriving DecidableEq

/-- Embeds `AflScheduler::on_add_metadata`.  The depth starts from the
current (parent) testcase's depth — `state.testcase(parent)?` and
`metadata::<SchedulerTestcaseMetadata>()?` propagate lookup failures as
errors — or from 0 when no testcase is current; then `depth += 1`, the
new testcase gets `with_n_fuzz_entry(depth, last_hash)` attached, and its
parent id is set to the current id. -/
def on_add_metadata (last_hash : ℕ) (s : AflState) (id : ℕ) :
    Except String AflState :=
  let current_id := s.current
  let depthRes : Except String ℕ :=
    match current_id with
    | some parent_idx =>
      match alLookup parent_idx s.testcases with
      | none => Except.error "corpus id not found"
      | some tc =>
        match tc.schedMeta with
        | none => Except.error "KeyNotFound"
        | some m => Except.ok m.depth
    | none => Except.ok 0
  match depthRes with
  | Except.error e => Except.error e
  | Except.ok depth0 =>
    let depth := depth0 + 1
    match alLookup id s.testcases with
    | none => Except.error "corpus id not found"
    | some tc =>
      let tc' : TestcaseState :=
        { tc with schedMeta := some (withNFuzzEntry depth last_hash),
                  parent := current_id }
      Except.ok { s with testcases := alInsert id tc' s.testcases }

/-! # Theorems -/

/-! ## MapFeedback lemmas -/

lemma isInteresting_eq (R : ℤ → ℤ → ℤ) :
    ∀ hist obs : List ℤ, obs.length ≤ hist.length →
      isInteresting R hist obs = some (countNovel R hist obs, updHist R hist obs) := by
  intro hist
  induction hist with
  | nil =>
    intro obs hlen
    cases obs with
    | nil => simp [isInteresting, countNovel, updHist]
    | cons o os => simp at hlen
  | cons h hs ih =>
    intro obs hlen
    cases obs with
    | nil => simp [isInteresting, countNovel, updHist]
    | cons o os =>
      have hlen' : os.length ≤ hs.length := by simpa using hlen
      by_cases hne : h = R h o
      · simp [isInteresting, ih os hlen', countNovel, updHist, List.countP_cons,
          hne.symm, ← hne]
      · have hne' : R h o ≠ h := fun hx => hne hx.symm
        simp [isInteresting, ih os hlen', countNovel, updHist, List.countP_cons,
          hne, hne']

lemma isInteresting_none (R : ℤ → ℤ → ℤ) :
    ∀ hist obs : List ℤ, hist.length < obs.length →
      isInteresting R hist obs = none := by
  intro hist
  induction hist with
  | nil =>
    intro obs hlen
    cases obs with
    | nil => simp at hlen
    | cons o os => simp [isInteresting]
  | cons h hs ih =>
    intro obs hlen
    cases obs with
    | nil => simp at hlen
    | cons o os =>
      have hlen' : hs.length < os.length := by simpa using hlen
      simp [isInteresting, ih os hlen']

lemma updHist_length (R : ℤ → ℤ → ℤ) :
    ∀ hist obs : List ℤ, (updHist R hist obs).length = hist.length := by
  intro hist
  induction hist with
  | nil => intro obs; cases obs <;> simp [updHist]
  | cons h hs ih =>
    intro obs
    cases obs with
    | nil => simp [updHist]
    | cons o os => simp [updHist, ih os]

lemma updHist_getD (R : ℤ → ℤ → ℤ) :
    ∀ hist obs : List ℤ, ∀ i : ℕ, obs.length ≤ hist.length →
      (updHist R hist obs).getD i 0 =
        if i < obs.length then R (hist.getD i 0) (obs.getD i 0)
        else hist.getD i 0 := by
  intro hist
  induction hist with
  | nil =>
    intro obs i hlen
    cases obs with
    | nil => simp [updHist]
    | cons o os => simp at hlen
  | cons h hs ih =>
    intro obs i hlen
    cases obs with
    | nil => simp [updHist]
    | cons o os =>
      have hlen' : os.length ≤ hs.length := by simpa using hlen
      cases i with
      | zero => simp [updHist]
      | succ j => simpa [updHist] using ih os j hlen'

example : isInteresting maxReduce [0, 0, 0, 0] [0, 7, 0, 3] = some (2, [0, 7, 0, 3]) := by
  decide

example : isInteresting maxReduce [0, 0] [5] = some (1, [5, 0]) := by decide

lemma maxReduce_eq_max (a b : ℤ) : maxReduce a b = max a b := by
  unfold maxReduce
  split_ifs <;> omega

lemma minReduce_eq_min (a b : ℤ) : minReduce a b = min a b := by
  unfold minReduce
  split_ifs <;> omega

lemma maxReduce_absorb (a b : ℤ) : maxReduce (maxReduce a b) b = maxReduce a b := by
  simp [maxReduce_eq_max, max_assoc]

lemma minReduce_absorb (a b : ℤ) : minReduce (minReduce a b) b = minReduce a b := by
  simp [minReduce_eq_min, min_assoc]

lemma isInteresting_second (R : ℤ → ℤ → ℤ) (hR : ∀ a b, R (R a b) b = R a b) :
    ∀ hist obs : List ℤ, obs.length ≤ hist.length →
      isInteresting R (updHist R hist obs) obs = some (0, updHist R hist obs) := by
  intro hist
  induction hist with
  | nil =>
    intro obs hlen
    cases obs with
    | nil => simp [isInteresting, updHist]
    | cons o os => simp at hlen
  | cons h hs ih =>
    intro obs hlen
    cases obs with
    | nil => simp [isInteresting, updHist]
    | cons o os =>
      have hlen' : os.length ≤ hs.length := by simpa using hlen
      simp [updHist, isInteresting, ih os hlen', hR]

lemma runFeedback_spec (R : ℤ → ℤ → ℤ) :
    ∀ (os : List (List ℤ)) (hist : List ℤ),
      (∀ o ∈ os, o.length = hist.length) →
      ∃ h', runFeedback R hist os = some h' ∧ h'.length = hist.length ∧
        ∀ i : ℕ, i < hist.length →
          h'.getD i 0 = List.foldl R (hist.getD i 0) (os.map fun o => o.getD i 0) := by
  intro os
  induction os with
  | nil =>
    intro hist _
    exact ⟨hist, rfl, rfl, by simp⟩
  | cons o os ih =>
    intro hist hlen
    have ho : o.length = hist.length := hlen o (by simp)
    have hle : o.length ≤ hist.length := le_of_eq ho
    have h1 : isInteresting R hist o = some (countNovel R hist o, updHist R hist o) :=
      isInteresting_eq R hist o hle
    have hlen2 : ∀ o' ∈ os, o'.length = (updHist R hist o).length := by
      intro o' ho'
      rw [updHist_length]
      exact hlen o' (by simp [ho'])
    obtain ⟨h', hrun, hlen', hchar⟩ := ih (updHist R hist o) hlen2
    refine ⟨h', ?_, ?_, ?_⟩
    · simp [runFeedback, h1, hrun]
    · rw [hlen', updHist_length]
    · intro i hi
      have hi2 : i < (updHist R hist o).length := by
        rw [updHist_length]; exact hi
      have hio : i < o.length := by omega
      have hx := hchar i hi2
      rw [hx, updHist_getD R hist o i hle, if_pos hio]
      simp

lemma foldl_maxReduce_take_le (vals : List ℤ) (a : ℤ) (m : ℕ) :
    List.foldl maxReduce a (vals.take m) ≤ List.foldl maxReduce a (vals.take (m + 1)) := by
  rw [List.take_succ, List.foldl_append]
  cases h : vals[m]? with
  | none => simp
  | some x =>
    simp only [Option.toList_some, List.foldl_cons, List.foldl_nil, maxReduce_eq_max]
    exact le_max_left _ _

/-- Claim C1: for every reducer and every observation of the same length
as the history map, `is_interesting` returns exactly the number of
indices whose reduced value differs from the stored history, and
overwrites exactly those history cells with the reduced value, leaving
all others unchanged; in particular, with a zero history of length 4,
the Max reducer, and observation [0,7,0,3], it returns 2 and the history
becomes [0,7,0,3]. -/
theorem c1_is_interesting_novelty (R : ℤ → ℤ → ℤ) (hist obs : List ℤ)
    (hlen : obs.length = hist.length) :
    (∃ hist', isInteresting R hist obs =
        some (((hist.zip obs).countP fun p => decide (R p.1 p.2 ≠ p.1)), hist') ∧
      hist'.length = hist.length ∧
      ∀ i : ℕ, i < hist.length →
        hist'.getD i 0 =
          if R (hist.getD i 0) (obs.getD i 0) ≠ hist.getD i 0
          then R (hist.getD i 0) (obs.getD i 0) else hist.getD i 0) ∧
    isInteresting maxReduce [0, 0, 0, 0] [0, 7, 0, 3] = some (2, [0, 7, 0, 3]) := by
  constructor
  · refine ⟨updHist R hist obs, ?_, updHist_length R hist obs, ?_⟩
    · simpa [countNovel] using isInteresting_eq R hist obs (le_of_eq hlen)
    · intro i hi
      have hio : i < obs.length := by omega
      rw [updHist_getD R hist obs i (le_of_eq hlen), if_pos hio]
      by_cases hx : R (hist.getD i 0) (obs.getD i 0) = hist.getD i 0
      · rw [if_neg (not_not_intro hx)]
        exact hx
      · rw [if_pos hx]
  · decide

theorem c1_witness :
    ([3] : List ℤ).length = ([1] : List ℤ).length ∧
    ((∃ hist', isInteresting maxReduce [1] [3] =
        some (((([1] : List ℤ).zip [3]).countP fun p => decide (maxReduce p.1 p.2 ≠ p.1)), hist') ∧
      hist'.length = ([1] : List ℤ).length ∧
      ∀ i : ℕ, i < ([1] : List ℤ).length →
        hist'.getD i 0 =
          if maxReduce (([1] : List ℤ).getD i 0) (([3] : List ℤ).getD i 0) ≠ ([1] : List ℤ).getD i 0
          then maxReduce (([1] : List ℤ).getD i 0) (([3] : List ℤ).getD i 0)
          else ([1] : List ℤ).getD i 0) ∧
    isInteresting maxReduce [0, 0, 0, 0] [0, 7, 0, 3] = some (2, [0, 7, 0, 3])) :=
  ⟨by decide, c1_is_interesting_novelty maxReduce [1] [3] (by decide)⟩

/-- Claim C2: starting from a history of all default (zero) cells, after
processing any sequence of equally sized observations, each history cell
equals the left fold of the reducer over the initial value and the
cell's values in the observations; consequently with the Max reducer
every history cell is monotone non-decreasing across calls. -/
theorem c2_history_is_reduce_fold (R : ℤ → ℤ → ℤ) (N : ℕ) (os : List (List ℤ))
    (hlen : ∀ o ∈ os, o.length = N) :
    (∃ h', runFeedback R (List.replicate N 0) os = some h' ∧ h'.length = N ∧
      ∀ i : ℕ, i < N →
        h'.getD i 0 = List.foldl R 0 (os.map fun o => o.getD i 0)) ∧
    (∀ i m : ℕ, ∀ hm hm1 : List ℤ, i < N →
      runFeedback maxReduce (List.replicate N 0) (os.take m) = some hm →
      runFeedback maxReduce (List.replicate N 0) (os.take (m + 1)) = some hm1 →
      hm.getD i 0 ≤ hm1.getD i 0) := by
  have hrep : ∀ i : ℕ, (List.replicate N (0 : ℤ)).getD i 0 = 0 := by
    intro i
    by_cases hi : i < N
    · rw [List.getD_eq_getElem _ _ (by simpa using hi)]
      simp
    · rw [List.getD_eq_default _ _ (by simpa using hi)]
  constructor
  · have hlen0 : ∀ o ∈ os, o.length = (List.replicate N (0 : ℤ)).length := by
      simpa using hlen
    obtain ⟨h', hrun, hl, hchar⟩ := runFeedback_spec R os (List.replicate N 0) hlen0
    refine ⟨h', hrun, by simpa using hl, ?_⟩
    intro i hi
    have := hchar i (by simpa using hi)
    rwa [hrep i] at this
  · intro i m hm hm1 hi hrunm hrunm1
    have hlenm : ∀ o ∈ os.take m, o.length = (List.replicate N (0 : ℤ)).length := by
      intro o ho
      simpa using hlen o (List.take_subset m os ho)
    have hlenm1 : ∀ o ∈ os.take (m + 1), o.length = (List.replicate N (0 : ℤ)).length := by
      intro o ho
      simpa using hlen o (List.take_subset (m + 1) os ho)
    obtain ⟨g, hg, _, hgchar⟩ := runFeedback_spec maxReduce (os.take m) (List.replicate N 0) hlenm
    obtain ⟨g1, hg1, _, hg1char⟩ :=
      runFeedback_spec maxReduce (os.take (m + 1)) (List.replicate N 0) hlenm1
    rw [hrunm] at hg
    rw [hrunm1] at hg1
    obtain rfl : g = hm := (Option.some.inj hg).symm
    obtain rfl : g1 = hm1 := (Option.some.inj hg1).symm
    have e1 := hgchar i (by simpa using hi)
    have e2 := hg1char i (by simpa using hi)
    rw [hrep i] at e1 e2
    rw [e1, e2, List.map_take, List.map_take]
    exact foldl_maxReduce_take_le (os.map fun o => o.getD i 0) 0 m

theorem c2_witness :
    (∀ o ∈ [[0, 7], [5, 1]], List.length o = 2) ∧
    ((∃ h', runFeedback maxReduce (List.replicate 2 0) [[0, 7], [5, 1]] = some h' ∧
        h'.length = 2 ∧
      ∀ i : ℕ, i < 2 →
        h'.getD i 0 = List.foldl maxReduce 0 (([[0, 7], [5, 1]] : List (List ℤ)).map fun o => o.getD i 0)) ∧
    (∀ i m : ℕ, ∀ hm hm1 : List ℤ, i < 2 →
      runFeedback maxReduce (List.replicate 2 0) (([[0, 7], [5, 1]] : List (List ℤ)).take m) = some hm →
      runFeedback maxReduce (List.replicate 2 0) (([[0, 7], [5, 1]] : List (List ℤ)).take (m + 1)) = some hm1 →
      hm.getD i 0 ≤ hm1.getD i 0)) :=
  ⟨by decide, c2_history_is_reduce_fold maxReduce 2 [[0, 7], [5, 1]] (by decide)⟩

/-- Claim C5 (code behaviour at the failing input): the source performs no
length check, so an observation shorter than the history map is processed
as a silently truncated prefix: with history [0,0] and observation [5]
under the Max reducer, `is_interesting` succeeds with count 1 and mutates
the history to [5,0], instead of failing with `SizeMismatch` and leaving
the history unchanged as the specification requires. -/
theorem c5_truncates_silently :
    isInteresting maxReduce [0, 0] [5] = some (1, [5, 0]) ∧
    ([5, 0] : List ℤ) ≠ [0, 0] := by
  decide

/-- Claim C8: calling `is_interesting` twice in a row with the same
observation (of the history map's length) returns some count on the first
call and 0 on the second, the second call leaving the history map
unchanged — for both reducers the source defines (Max and Min). -/
theorem c8_novelty_idempotent (hist obs : List ℤ) (hlen : obs.length = hist.length) :
    (∀ (n : ℕ) (h1 : List ℤ), isInteresting maxReduce hist obs = some (n, h1) →
      isInteresting maxReduce h1 obs = some (0, h1)) ∧
    (∀ (n : ℕ) (h1 : List ℤ), isInteresting minReduce hist obs = some (n, h1) →
      isInteresting minReduce h1 obs = some (0, h1)) := by
  constructor
  · intro n h1 h
    rw [isInteresting_eq maxReduce hist obs (le_of_eq hlen)] at h
    obtain ⟨-, rfl⟩ : n = countNovel maxReduce hist obs ∧ h1 = updHist maxReduce hist obs := by
      have := Option.some.inj h
      exact ⟨congrArg Prod.fst this.symm, congrArg Prod.snd this.symm⟩
    exact isInteresting_second maxReduce maxReduce_absorb hist obs (le_of_eq hlen)
  · intro n h1 h
    rw [isInteresting_eq minReduce hist obs (le_of_eq hlen)] at h
    obtain ⟨-, rfl⟩ : n = countNovel minReduce hist obs ∧ h1 = updHist minReduce hist obs := by
      have := Option.some.inj h
      exact ⟨congrArg Prod.fst this.symm, congrArg Prod.snd this.symm⟩
    exact isInteresting_second minReduce minReduce_absorb hist obs (le_of_eq hlen)

theorem c8_witness :
    ([0, 7, 0, 3] : List ℤ).length = ([0, 0, 0, 0] : List ℤ).length ∧
    ((∀ (n : ℕ) (h1 : List ℤ),
        isInteresting maxReduce [0, 0, 0, 0] [0, 7, 0, 3] = some (n, h1) →
        isInteresting maxReduce h1 [0, 7, 0, 3] = some (0, h1)) ∧
      (∀ (n : ℕ) (h1 : List ℤ),
        isInteresting minReduce [0, 0, 0, 0] [0, 7, 0, 3] = some (n, h1) →
        isInteresting minReduce h1 [0, 7, 0, 3] = some (0, h1))) :=
  ⟨by decide, c8_novelty_idempotent [0, 0, 0, 0] [0, 7, 0, 3] (by decide)⟩

/-! ## Association-list lemmas -/

lemma alLookup_insert_self {α : Type} (id : ℕ) (v : α) :
    ∀ l : List (ℕ × α), alLookup id (alInsert id v l) = some v := by
  intro l
  induction l with
  | nil => simp [alInsert, alLookup]
  | cons e t ih =>
    obtain ⟨k, w⟩ := e
    by_cases hk : k = id
    · simp [alInsert, alLookup, hk]
    · simp [alInsert, alLookup, hk, ih]

lemma alLookup_of_not_mem {α : Type} (id : ℕ) :
    ∀ l : List (ℕ × α), id ∉ alKeys l → alLookup id l = none := by
  intro l
  induction l with
  | nil => simp [alLookup]
  | cons e t ih =>
    obtain ⟨k, w⟩ := e
    intro hmem
    simp only [alKeys, List.map_cons, List.mem_cons] at hmem
    push_neg at hmem
    simp only [alLookup]
    rw [if_neg (fun h => hmem.1 h.symm)]
    exact ih hmem.2

lemma alRemove_of_absent {α : Type} (id : ℕ) :
    ∀ l : List (ℕ × α), alLookup id l = none → alRemove id l = l := by
  intro l
  induction l with
  | nil => simp [alRemove]
  | cons e t ih =>
    obtain ⟨k, w⟩ := e
    intro h
    by_cases hk : k = id
    · simp [alLookup, hk] at h
    · simp [alLookup, hk] at h
      simp [alRemove, hk, ih h]

lemma alKeys_remove_sublist {α : Type} (id : ℕ) :
    ∀ l : List (ℕ × α), (alKeys (alRemove id l)).Sublist (alKeys l) := by
  intro l
  induction l with
  | nil => simp [alRemove, alKeys]
  | cons e t ih =>
    obtain ⟨k, w⟩ := e
    by_cases hk : k = id
    · simp only [alRemove, alKeys, hk, if_pos, List.map_cons]
      exact List.sublist_cons_of_sublist _ (List.Sublist.refl _)
    · simpa [alRemove, alKeys, hk] using ih

lemma alKeys_remove_nodup {α : Type} (id : ℕ) (l : List (ℕ × α))
    (h : (alKeys l).Nodup) : (alKeys (alRemove id l)).Nodup :=
  (alKeys_remove_sublist id l).nodup h

lemma alKeys_insert_mem {α : Type} (id : ℕ) (v : α) :
    ∀ l : List (ℕ × α), ∀ x : ℕ, x ∈ alKeys (alInsert id v l) → x ∈ alKeys l ∨ x = id := by
  intro l
  induction l with
  | nil =>
    intro x hx
    simp only [alInsert, alKeys, List.map_cons, List.map_nil, List.mem_cons,
      List.not_mem_nil, or_false] at hx
    right
    exact hx
  | cons e t ih =>
    obtain ⟨k, w⟩ := e
    intro x hx
    by_cases hk : k = id
    · have he : alInsert id v ((k, w) :: t) = (k, v) :: t := by simp [alInsert, hk]
      rw [he] at hx
      simp only [alKeys, List.map_cons, List.mem_cons] at hx ⊢
      rcases hx with hx | hx
      · exact Or.inl (Or.inl hx)
      · exact Or.inl (Or.inr hx)
    · have he : alInsert id v ((k, w) :: t) = (k, w) :: alInsert id v t := by
        simp [alInsert, hk]
      rw [he] at hx
      simp only [alKeys, List.map_cons, List.mem_cons] at hx ⊢
      rcases hx with hx | hx
      · exact Or.inl (Or.inl hx)
      · rcases ih x hx with h | h
        · exact Or.inl (Or.inr h)
        · exact Or.inr h

lemma alKeys_insert_nodup {α : Type} (id : ℕ) (v : α) :
    ∀ l : List (ℕ × α), (alKeys l).Nodup → (alKeys (alInsert id v l)).Nodup := by
  intro l
  induction l with
  | nil => simp [alInsert, alKeys]
  | cons e t ih =>
    obtain ⟨k, w⟩ := e
    intro hnd
    have hnd' : k ∉ alKeys t ∧ (alKeys t).Nodup := by
      simpa [alKeys, List.nodup_cons] using hnd
    by_cases hk : k = id
    · have he : alInsert id v ((k, w) :: t) = (k, v) :: t := by simp [alInsert, hk]
      rw [he]
      simp only [alKeys, List.map_cons, List.nodup_cons]
      exact ⟨hnd'.1, hnd'.2⟩
    · have he : alInsert id v ((k, w) :: t) = (k, w) :: alInsert id v t := by
        simp [alInsert, hk]
      rw [he]
      have hrec := ih hnd'.2
      simp only [alKeys, List.map_cons, List.nodup_cons]
      refine ⟨?_, hrec⟩
      intro hmem
      rcases alKeys_insert_mem id v t k hmem with h | h
      · exact hnd'.1 h
      · exact hk h

lemma alLookup_remove_self {α : Type} (id : ℕ) :
    ∀ l : List (ℕ × α), (alKeys l).Nodup → alLookup id (alRemove id l) = none := by
  intro l
  induction l with
  | nil => simp [alRemove, alLookup]
  | cons e t ih =>
    obtain ⟨k, w⟩ := e
    intro hnd
    simp [alKeys] at hnd
    by_cases hk : k = id
    · subst hk
      simp [alRemove]
      exact alLookup_of_not_mem k t (by simpa [alKeys] using hnd.1)
    · simp [alRemove, alLookup, hk]
      exact ih hnd.2

lemma sumVals_insert_absent (id : ℕ) (p : ℚ) :
    ∀ l : List (ℕ × ℚ), alLookup id l = none →
      sumVals (alInsert id p l) = sumVals l + p := by
  intro l
  induction l with
  | nil => simp [alInsert, sumVals]
  | cons e t ih =>
    obtain ⟨k, w⟩ := e
    intro h
    by_cases hk : k = id
    · simp [alLookup, hk] at h
    · simp [alLookup, hk] at h
      simp [alInsert, hk, sumVals] at ih ⊢
      rw [ih h]
      ring

lemma sumVals_remove_present (id : ℕ) (v : ℚ) :
    ∀ l : List (ℕ × ℚ), alLookup id l = some v →
      sumVals (alRemove id l) = sumVals l - v := by
  intro l
  induction l with
  | nil => simp [alLookup]
  | cons e t ih =>
    obtain ⟨k, w⟩ := e
    by_cases hk : k = id
    · intro h
      simp [alLookup, hk] at h
      simp [alRemove, hk, sumVals, h]
    · intro h
      simp [alLookup, hk] at h
      simp [alRemove, hk, sumVals] at ih ⊢
      rw [ih h]
      ring

/-! ## ProbabilityMetadata invariant (claim C4) -/

/-- The well-formedness invariant of `ProbabilityMetadata`: keys are
unique (a property of any hash map) and the running total equals the sum
of the stored values. -/
def pmInv (m : ProbabilityMetadata) : Prop :=
  (alKeys m.map).Nodup ∧ m.total_probability = sumVals m.map

lemma onRemoveMeta_inv (m : ProbabilityMetadata) (id : ℕ) (h : pmInv m) :
    pmInv (onRemoveMeta m id) := by
  obtain ⟨hnd, htot⟩ := h
  unfold onRemoveMeta
  cases hl : alLookup id m.map with
  | none => exact ⟨hnd, htot⟩
  | some v =>
    refine ⟨alKeys_remove_nodup id m.map hnd, ?_⟩
    simp only
    rw [sumVals_remove_present id v m.map hl, htot]

lemma store_probability_inv (m : ProbabilityMetadata) (id : ℕ) (p : ℚ)
    (h : pmInv m) (hfresh : alLookup id m.map = none) :
    pmInv (store_probability m id p) := by
  obtain ⟨hnd, htot⟩ := h
  refine ⟨alKeys_insert_nodup id p m.map hnd, ?_⟩
  unfold store_probability
  simp only
  rw [sumVals_insert_absent id p m.map hfresh, htot]

lemma applyOp_inv (m : ProbabilityMetadata) (op : POp) (h : pmInv m)
    (hfresh : ∀ id p, op = POp.add id p → alLookup id m.map = none) :
    pmInv (applyOp m op) := by
  cases op with
  | add id p => exact store_probability_inv m id p h (hfresh id p rfl)
  | remove id => exact onRemoveMeta_inv m id h
  | replace id p =>
    have h1 : pmInv (onRemoveMeta m id) := onRemoveMeta_inv m id h
    refine store_probability_inv _ id p h1 ?_
    unfold onRemoveMeta
    cases hl : alLookup id m.map with
    | none => exact hl
    | some v =>
      simp only
      exact alLookup_remove_self id m.map h.1

lemma applyOps_inv :
    ∀ (ops : List POp) (m : ProbabilityMetadata), pmInv m →
      addsFresh m ops = true → pmInv (applyOps m ops) := by
  intro ops
  induction ops with
  | nil => intro m h _; exact h
  | cons op ops ih =>
    intro m h hf
    simp only [addsFresh, Bool.and_eq_true] at hf
    have hstep : pmInv (applyOp m op) := by
      refine applyOp_inv m op h ?_
      intro id p hop
      subst hop
      simpa [Option.isNone_iff_eq_none] using hf.1
    have : applyOps m (op :: ops) = applyOps (applyOp m op) ops := by
      simp [applyOps]
    rw [this]
    exact ih (applyOp m op) hstep hf.2

/-- Claim C4 (counterexample): invoking `on_add` twice for the same
corpus id (scores 2 then 3) from fresh metadata leaves
`total_probability = 5` while the map stores only the overwritten value
3, so the total is not within tolerance `1e-9 * max(1, Σ)` of the sum of
the stored values, contradicting the claim as stated for arbitrary
operation sequences. -/
theorem c4_counterexample :
    ¬ (|(applyOps ⟨[], 0⟩ [POp.add 0 2, POp.add 0 3]).total_probability -
          sumVals (applyOps ⟨[], 0⟩ [POp.add 0 2, POp.add 0 3]).map| ≤
        (1 / 1000000000) *
          max 1 (sumVals (applyOps ⟨[], 0⟩ [POp.add 0 2, POp.add 0 3]).map)) := by
  have h1 : (applyOps ⟨[], 0⟩ [POp.add 0 2, POp.add 0 3]).total_probability = 5 := by
    simp [applyOps, applyOp, store_probability, alInsert]
    norm_num
  have h2 : sumVals (applyOps ⟨[], 0⟩ [POp.add 0 2, POp.add 0 3]).map = 3 := by
    simp [applyOps, applyOp, store_probability, alInsert, sumVals]
  rw [h1, h2]
  have hmax : max (1 : ℚ) 3 = 3 := by norm_num [max_def]
  rw [hmax]
  norm_num

/-- Claim C4 (amended): for every sequence of `on_add`, `on_remove` and
`on_replace` operations starting from fresh `ProbabilityMetadata` in
which every `on_add` targets an id not currently in the map,
`total_probability` equals the exact sum of the stored values (hence is
within the floating tolerance); moreover `on_remove` of a present id
subtracts exactly the stored value and removes the entry, and
`on_remove` of an absent id changes nothing and is not an error. -/
theorem c4_total_is_sum (ops : List POp) (h : addsFresh ⟨[], 0⟩ ops = true) :
    ((applyOps ⟨[], 0⟩ ops).total_probability =
        sumVals (applyOps ⟨[], 0⟩ ops).map ∧
      |(applyOps ⟨[], 0⟩ ops).total_probability -
          sumVals (applyOps ⟨[], 0⟩ ops).map| ≤
        (1 / 1000000000) * max 1 (sumVals (applyOps ⟨[], 0⟩ ops).map)) ∧
    (∀ (m : ProbabilityMetadata) (id : ℕ) (v : ℚ), alLookup id m.map = some v →
      applyOp m (POp.remove id) =
        ProbabilityMetadata.mk (alRemove id m.map) (m.total_probability - v)) ∧
    (∀ (m : ProbabilityMetadata) (id : ℕ), alLookup id m.map = none →
      applyOp m (POp.remove id) = m) := by
  refine ⟨?_, ?_, ?_⟩
  · have hInv : pmInv (applyOps ⟨[], 0⟩ ops) := by
      refine applyOps_inv ops ⟨[], 0⟩ ⟨by simp [alKeys], by simp [sumVals]⟩ h
    refine ⟨hInv.2, ?_⟩
    rw [hInv.2]
    simp only [sub_self, abs_zero]
    positivity
  · intro m id v hl
    simp [applyOp, onRemoveMeta, hl]
  · intro m id hl
    simp [applyOp, onRemoveMeta, hl]

theorem c4_witness :
    addsFresh ⟨[], 0⟩ [POp.add 1 1, POp.add 2 2, POp.add 3 3, POp.remove 2] = true ∧
    (((applyOps ⟨[], 0⟩ [POp.add 1 1, POp.add 2 2, POp.add 3 3, POp.remove 2]).total_probability =
        sumVals (applyOps ⟨[], 0⟩ [POp.add 1 1, POp.add 2 2, POp.add 3 3, POp.remove 2]).map ∧
      |(applyOps ⟨[], 0⟩ [POp.add 1 1, POp.add 2 2, POp.add 3 3, POp.remove 2]).total_probability -
          sumVals (applyOps ⟨[], 0⟩ [POp.add 1 1, POp.add 2 2, POp.add 3 3, POp.remove 2]).map| ≤
        (1 / 1000000000) *
          max 1 (sumVals (applyOps ⟨[], 0⟩ [POp.add 1 1, POp.add 2 2, POp.add 3 3, POp.remove 2]).map)) ∧
    (∀ (m : ProbabilityMetadata) (id : ℕ) (v : ℚ), alLookup id m.map = some v →
      applyOp m (POp.remove id) =
        ProbabilityMetadata.mk (alRemove id m.map) (m.total_probability - v)) ∧
    (∀ (m : ProbabilityMetadata) (id : ℕ), alLookup id m.map = none →
      applyOp m (POp.remove id) = m)) :=
  ⟨by decide, c4_total_is_sum [POp.add 1 1, POp.add 2 2, POp.add 3 3, POp.remove 2] (by decide)⟩

/-! ## The selection loop of `ProbabilitySamplingScheduler::next` -/

lemma sumTo_zero (entries : List (ℕ × ℚ)) : sumTo entries 0 = 0 := by
  simp [sumTo]

lemma sumTo_cons_succ (e : ℕ × ℚ) (t : List (ℕ × ℚ)) (n : ℕ) :
    sumTo (e :: t) (n + 1) = e.2 + sumTo t n := by
  simp [sumTo, List.take_succ_cons]

lemma chooseId_char (fallback : ℕ) (threshold : ℚ) :
    ∀ (entries : List (ℕ × ℚ)) (k : ℚ),
      (∃ j, ∃ hj : j < entries.length,
        threshold ≤ k + sumTo entries (j + 1) ∧
        (∀ i, i < j → k + sumTo entries (i + 1) < threshold) ∧
        chooseId fallback threshold k entries = (entries.get ⟨j, hj⟩).1) ∨
      ((∀ j, j < entries.length → k + sumTo entries (j + 1) < threshold) ∧
        chooseId fallback threshold k entries = fallback) := by
  intro entries
  induction entries with
  | nil =>
    intro k
    right
    refine ⟨?_, rfl⟩
    intro j hj
    simp at hj
  | cons e t ih =>
    obtain ⟨idx, prob⟩ := e
    intro k
    by_cases hge : k + prob ≥ threshold
    · left
      refine ⟨0, by simp, ?_, ?_, ?_⟩
      · rw [sumTo_cons_succ, sumTo_zero]
        simpa using hge
      · intro i hi
        omega
      · simp [chooseId, hge]
    · push_neg at hge
      rcases ih (k + prob) with ⟨j, hj, h1, h2, heq⟩ | ⟨hall, heq⟩
      · left
        refine ⟨j + 1, by simpa using Nat.succ_lt_succ hj, ?_, ?_, ?_⟩
        · rw [sumTo_cons_succ]
          simp only at h1 ⊢
          linarith
        · intro i hi
          cases i with
          | zero =>
            rw [sumTo_cons_succ, sumTo_zero]
            simpa using hge
          | succ i' =>
            rw [sumTo_cons_succ]
            have := h2 i' (by omega)
            simp only at this ⊢
            linarith
        · simp only [chooseId]
          rw [if_neg (not_le.mpr hge)]
          rw [heq]
          simp
      · right
        constructor
        · intro j hj
          cases j with
          | zero =>
            rw [sumTo_cons_succ, sumTo_zero]
            simpa using hge
          | succ j' =>
            rw [sumTo_cons_succ]
            have := hall j' (by simpa using Nat.lt_of_succ_lt_succ hj)
            simp only at this ⊢
            linarith
        · simp only [chooseId]
          rw [if_neg (not_le.mpr hge)]
          exact heq

/-- Claim C3: on an empty corpus, `next` returns the `Empty` error; with a
non-empty corpus, `ProbabilityMetadata` present, and a non-empty map, it
draws `u` from the RNG, sets `threshold = total_probability * u`,
accumulates the probabilities in the map's iteration order, returns the
first id whose running sum reaches the threshold — falling back to the
last enumerated id when none does — and stores the returned id as the
currently scheduled one. -/
theorem c3_next_picks_first_reaching_threshold (s : ProbState) :
    (s.corpus = [] → nextProb s = (NextOut.empty, s)) ∧
    (∀ m : ProbabilityMetadata, s.corpus ≠ [] → s.meta = some m →
      ∀ hne : m.map ≠ [],
      ∃ id, (nextProb s).1 = NextOut.ok id ∧
        (nextProb s).2.current = some id ∧
        (nextProb s).2.rngIdx = s.rngIdx + 1 ∧
        ((∃ j, ∃ hj : j < m.map.length,
            m.total_probability * s.rngVals s.rngIdx ≤ sumTo m.map (j + 1) ∧
            (∀ i, i < j →
              sumTo m.map (i + 1) < m.total_probability * s.rngVals s.rngIdx) ∧
            id = (m.map.get ⟨j, hj⟩).1) ∨
          ((∀ j, j < m.map.length →
              sumTo m.map (j + 1) < m.total_probability * s.rngVals s.rngIdx) ∧
            id = (m.map.getLast hne).1))) := by
  constructor
  · intro hc
    simp [nextProb, hc]
  · intro m hc hm hne
    have hlen : ¬ s.corpus.length = 0 := by
      simpa [List.length_eq_zero] using hc
    have hlast : m.map.getLast? = some (m.map.getLast hne) :=
      List.getLast?_eq_getLast m.map hne
    have hnext : nextProb s =
        (NextOut.ok
            (chooseId (m.map.getLast hne).1
              (m.total_probability * s.rngVals s.rngIdx) 0 m.map),
          { s with rngIdx := s.rngIdx + 1,
                   current := some
                     (chooseId (m.map.getLast hne).1
                       (m.total_probability * s.rngVals s.rngIdx) 0 m.map) }) := by
      simp only [nextProb, hm, hlast, if_neg hlen]
    refine ⟨chooseId (m.map.getLast hne).1
        (m.total_probability * s.rngVals s.rngIdx) 0 m.map, ?_, ?_, ?_, ?_⟩
    · rw [hnext]
    · rw [hnext]
    · rw [hnext]
    · rcases chooseId_char (m.map.getLast hne).1
          (m.total_probability * s.rngVals s.rngIdx) m.map 0 with
        ⟨j, hj, h1, h2, heq⟩ | ⟨hall, heq⟩
      · left
        refine ⟨j, hj, ?_, ?_, heq⟩
        · rw [zero_add] at h1
          exact h1
        · intro i hi
          have := h2 i hi
          rwa [zero_add] at this
      · right
        refine ⟨?_, heq⟩
        intro j hj
        have := hall j hj
        rwa [zero_add] at this

theorem c3_witness :
    (([7] : List ℕ) ≠ [] ∧
      (ProbabilityMetadata.mk [(7, 1)] 1).map ≠ []) ∧
    ((([] : List ℕ) = [] →
        nextProb (ProbState.mk [] (some (ProbabilityMetadata.mk [(7, 1)] 1)) none (fun _ => 0) 0) =
          (NextOut.empty,
            ProbState.mk [] (some (ProbabilityMetadata.mk [(7, 1)] 1)) none (fun _ => 0) 0)) ∧
      (∀ m : ProbabilityMetadata,
        (ProbState.mk [7] (some (ProbabilityMetadata.mk [(7, 1)] 1)) none (fun _ => 0) 0).corpus ≠ [] →
        (ProbState.mk [7] (some (ProbabilityMetadata.mk [(7, 1)] 1)) none (fun _ => 0) 0).meta = some m →
        ∀ hne : m.map ≠ [],
        ∃ id,
          (nextProb (ProbState.mk [7] (some (ProbabilityMetadata.mk [(7, 1)] 1)) none (fun _ => 0) 0)).1 =
            NextOut.ok id ∧
          (nextProb (ProbState.mk [7] (some (ProbabilityMetadata.mk [(7, 1)] 1)) none (fun _ => 0) 0)).2.current =
            some id ∧
          (nextProb (ProbState.mk [7] (some (ProbabilityMetadata.mk [(7, 1)] 1)) none (fun _ => 0) 0)).2.rngIdx =
            (ProbState.mk [7] (some (ProbabilityMetadata.mk [(7, 1)] 1)) none (fun _ => 0) 0).rngIdx + 1 ∧
          ((∃ j, ∃ hj : j < m.map.length,
              m.total_probability *
                  (ProbState.mk [7] (some (ProbabilityMetadata.mk [(7, 1)] 1)) none (fun _ => 0) 0).rngVals
                    (ProbState.mk [7] (some (ProbabilityMetadata.mk [(7, 1)] 1)) none (fun _ => 0) 0).rngIdx ≤
                sumTo m.map (j + 1) ∧
              (∀ i, i < j →
                sumTo m.map (i + 1) <
                  m.total_probability *
                    (ProbState.mk [7] (some (ProbabilityMetadata.mk [(7, 1)] 1)) none (fun _ => 0) 0).rngVals
                      (ProbState.mk [7] (some (ProbabilityMetadata.mk [(7, 1)] 1)) none (fun _ => 0) 0).rngIdx) ∧
              id = (m.map.get ⟨j, hj⟩).1) ∨
            ((∀ j, j < m.map.length →
                sumTo m.map (j + 1) <
                  m.total_probability *
                    (ProbState.mk [7] (some (ProbabilityMetadata.mk [(7, 1)] 1)) none (fun _ => 0) 0).rngVals
                      (ProbState.mk [7] (some (ProbabilityMetadata.mk [(7, 1)] 1)) none (fun _ => 0) 0).rngIdx) ∧
              id = (m.map.getLast hne).1)))) :=
  ⟨⟨by decide, by decide⟩,
    (c3_next_picks_first_reaching_threshold
      (ProbState.mk [] (some (ProbabilityMetadata.mk [(7, 1)] 1)) none (fun _ => 0) 0)).1,
    (c3_next_picks_first_reaching_threshold
      (ProbState.mk [7] (some (ProbabilityMetadata.mk [(7, 1)] 1)) none (fun _ => 0) 0)).2⟩

/-- Claim C10: `next` returns the `Empty` error exactly when the corpus is
empty; with a non-empty corpus it panics — rather than returning an error
— when the `ProbabilityMetadata` entry is absent (metadata `unwrap`) or
when its map is empty (`keys().last().unwrap()`), so a successful call
presupposes that corpus entries were registered via `on_add`. -/
theorem c10_next_panics_without_on_add (s : ProbState) :
    ((nextProb s).1 = NextOut.empty ↔ s.corpus = []) ∧
    (s.corpus ≠ [] → s.meta = none → (nextProb s).1 = NextOut.panicked) ∧
    (∀ m : ProbabilityMetadata, s.corpus ≠ [] → s.meta = some m → m.map = [] →
      (nextProb s).1 = NextOut.panicked) := by
  refine ⟨?_, ?_, ?_⟩
  · constructor
    · intro h
      by_contra hcne
      have hlen : ¬ s.corpus.length = 0 := by
        simpa [List.length_eq_zero] using hcne
      cases hm : s.meta with
      | none => simp [nextProb, hcne, hm] at h
      | some m =>
        cases hl : m.map.getLast? with
        | none => simp [nextProb, hcne, hm, hl] at h
        | some e => simp [nextProb, hcne, hm, hl] at h
    · intro h
      simp [nextProb, h]
  · intro hc hm
    simp [nextProb, hc, hm]
  · intro m hc hm hmap
    have hl : m.map.getLast? = none := by simp [hmap]
    simp [nextProb, hc, hm, hl]

theorem c10_witness :
    ((ProbState.mk [3] none none (fun _ => 0) 0).corpus ≠ [] ∧
      (ProbState.mk [3] (some (ProbabilityMetadata.mk [] 0)) none (fun _ => 0) 0).corpus ≠ [] ∧
      (ProbabilityMetadata.mk [] 0).map = []) ∧
    ((nextProb (ProbState.mk [3] none none (fun _ => 0) 0)).1 = NextOut.panicked ∧
      (nextProb (ProbState.mk [3] (some (ProbabilityMetadata.mk [] 0)) none (fun _ => 0) 0)).1 =
        NextOut.panicked) :=
  ⟨⟨by decide, by decide, rfl⟩,
    (c10_next_panics_without_on_add (ProbState.mk [3] none none (fun _ => 0) 0)).2.1
      (by decide) rfl,
    (c10_next_panics_without_on_add
        (ProbState.mk [3] (some (ProbabilityMetadata.mk [] 0)) none (fun _ => 0) 0)).2.2
      (ProbabilityMetadata.mk [] 0) (by decide) rfl rfl⟩

/-! ## Determinism of scheduler replay (claim C9) -/

/-- Claim C9: two runs of the probability-sampling scheduler (resp. the
random scheduler) that start from identically seeded RNG streams and
identical corpus/metadata state, and receive the same sequence of engine
calls, produce identical sequences of `next()` outcomes. -/
theorem c9_same_seed_same_ids (s1 s2 : ProbState) (ops : List EngOp)
    (t1 t2 : RandState) (rops : List RandOp)
    (hc : s1.corpus = s2.corpus) (hm : s1.meta = s2.meta)
    (hcur : s1.current = s2.current) (hrv : s1.rngVals = s2.rngVals)
    (hri : s1.rngIdx = s2.rngIdx)
    (kc : t1.corpus = t2.corpus) (kcur : t1.current = t2.current)
    (krv : t1.rngVals = t2.rngVals) (kri : t1.rngIdx = t2.rngIdx) :
    runProb s1 ops = runProb s2 ops ∧ runRand t1 rops = runRand t2 rops := by
  have hs : s1 = s2 := by
    obtain ⟨a1, b1, c1, d1, e1⟩ := s1
    obtain ⟨a2, b2, c2, d2, e2⟩ := s2
    dsimp only at hc hm hcur hrv hri
    subst hc
    subst hm
    subst hcur
    subst hrv
    subst hri
    rfl
  have ht : t1 = t2 := by
    obtain ⟨a1, b1, c1, d1⟩ := t1
    obtain ⟨a2, b2, c2, d2⟩ := t2
    dsimp only at kc kcur krv kri
    subst kc
    subst kcur
    subst krv
    subst kri
    rfl
  subst hs
  subst ht
  exact ⟨rfl, rfl⟩

theorem c9_witness :
    ((ProbState.mk [0] (some (ProbabilityMetadata.mk [(0, 1)] 1)) none (fun _ => 0) 0).corpus =
        (ProbState.mk [0] (some (ProbabilityMetadata.mk [(0, 1)] 1)) none (fun _ => 0) 0).corpus ∧
      (RandState.mk [0] none (fun _ => 0) 0).corpus = (RandState.mk [0] none (fun _ => 0) 0).corpus) ∧
    (runProb (ProbState.mk [0] (some (ProbabilityMetadata.mk [(0, 1)] 1)) none (fun _ => 0) 0)
        [EngOp.next, EngOp.add 1 2, EngOp.next] =
      runProb (ProbState.mk [0] (some (ProbabilityMetadata.mk [(0, 1)] 1)) none (fun _ => 0) 0)
        [EngOp.next, EngOp.add 1 2, EngOp.next] ∧
      runRand (RandState.mk [0] none (fun _ => 0) 0) [RandOp.next, RandOp.add 1, RandOp.next] =
        runRand (RandState.mk [0] none (fun _ => 0) 0) [RandOp.next, RandOp.add 1, RandOp.next]) :=
  ⟨⟨rfl, rfl⟩,
    c9_same_seed_same_ids
      (ProbState.mk [0] (some (ProbabilityMetadata.mk [(0, 1)] 1)) none (fun _ => 0) 0)
      (ProbState.mk [0] (some (ProbabilityMetadata.mk [(0, 1)] 1)) none (fun _ => 0) 0)
      [EngOp.next, EngOp.add 1 2, EngOp.next]
      (RandState.mk [0] none (fun _ => 0) 0) (RandState.mk [0] none (fun _ => 0) 0)
      [RandOp.next, RandOp.add 1, RandOp.next]
      rfl rfl rfl rfl rfl rfl rfl rfl rfl⟩

/-! ## Release-build behaviour of store_probability (claim C6) -/

/-- Claim C6 (code behaviour at the failing input): the only guard in
`store_probability` is a `debug_assert!`, which release builds compile
out, so a negative score (here -1) returned by `TestcaseScore::compute`
is inserted into the map and added to `total_probability` without any
error being surfaced — contradicting the claim that an
`InvariantViolation` error is returned and the bad value never stored. -/
theorem c6_release_inserts_bad_score :
    alLookup 0 (store_probability (ProbabilityMetadata.mk [] 0) 0 (-1)).map = some (-1) ∧
    (store_probability (ProbabilityMetadata.mk [] 0) 0 (-1)).total_probability = -1 ∧
    (-1 : ℚ) < 0 := by
  refine ⟨?_, ?_, by norm_num⟩
  · simp [store_probability, alInsert, alLookup]
  · simp [store_probability]

/-! ## AflScheduler::on_add_metadata depth (claim C7) -/

/-- Claim C7 (counterexample): adding a root testcase (no currently
scheduled id) attaches depth 1 — the source computes `depth = 0` for the
root and then unconditionally runs `depth += 1` — not depth 0 as the
claim states, so the produced state differs from the claimed one. -/
theorem c7_counterexample :
    on_add_metadata 7 (AflState.mk none [(0, TestcaseState.mk none none)]) 0 =
      Except.ok
        (AflState.mk none [(0, TestcaseState.mk (some (TestcaseMeta.mk 1 0 7)) none)]) ∧
    on_add_metadata 7 (AflState.mk none [(0, TestcaseState.mk none none)]) 0 ≠
      Except.ok
        (AflState.mk none [(0, TestcaseState.mk (some (TestcaseMeta.mk 0 0 7)) none)]) := by
  have h1 : on_add_metadata 7 (AflState.mk none [(0, TestcaseState.mk none none)]) 0 =
      Except.ok
        (AflState.mk none [(0, TestcaseState.mk (some (TestcaseMeta.mk 1 0 7)) none)]) := rfl
  refine ⟨h1, ?_⟩
  intro h
  rw [h1] at h
  injection h with h2
  simp at h2

/-- Claim C7 (amended): when the looked-up testcase exists and — if a
testcase is currently scheduled — the parent testcase exists and carries
`SchedulerTestcaseMetadata`, `on_add_metadata` succeeds and attaches
metadata with depth equal to the parent's depth plus 1 (depth 1, not 0,
when there is no current testcase), handicap 0, and `n_fuzz_entry` equal
to the scheduler's `last_hash`; the new testcase's parent id is set to
the currently scheduled id (if any). -/
theorem c7_depth_parent_link (last_hash : ℕ) (s : AflState) (id : ℕ)
    (tc : TestcaseState) (htc : alLookup id s.testcases = some tc)
    (hpar : ∀ p, s.current = some p →
      ∃ ptc : TestcaseState, ∃ pm : TestcaseMeta,
        alLookup p s.testcases = some ptc ∧ ptc.schedMeta = some pm) :
    ∃ s' : AflState, on_add_metadata last_hash s id = Except.ok s' ∧
      s'.current = s.current ∧
      ∃ d : ℕ,
        (s.current = none → d = 0) ∧
        (∀ (p : ℕ) (ptc : TestcaseState) (pm : TestcaseMeta),
          s.current = some p → alLookup p s.testcases = some ptc →
          ptc.schedMeta = some pm → d = pm.depth) ∧
        alLookup id s'.testcases =
          some (TestcaseState.mk (some (TestcaseMeta.mk (d + 1) 0 last_hash)) s.current) := by
  cases hcur : s.current with
  | none =>
    refine ⟨AflState.mk none
        (alInsert id (TestcaseState.mk (some (withNFuzzEntry 1 last_hash)) none)
          s.testcases), ?_, rfl, 0, fun _ => rfl, ?_, ?_⟩
    · simp only [on_add_metadata, hcur, htc]
    · intro p ptc pm hp
      exact Option.noConfusion hp
    · simpa [withNFuzzEntry] using
        alLookup_insert_self id
          (TestcaseState.mk (some (withNFuzzEntry 1 last_hash)) none) s.testcases
  | some p =>
    obtain ⟨ptc, pm, hptc, hpm⟩ := hpar p hcur
    refine ⟨AflState.mk (some p)
        (alInsert id (TestcaseState.mk (some (withNFuzzEntry (pm.depth + 1) last_hash)) (some p))
          s.testcases), ?_, rfl, pm.depth, ?_, ?_, ?_⟩
    · simp only [on_add_metadata, hcur, hptc, hpm, htc]
    · intro h
      exact Option.noConfusion h
    · intro p' ptc' pm' hp' hptc' hpm'
      obtain rfl : p = p' := Option.some.inj hp'
      obtain rfl : ptc = ptc' := Option.some.inj (hptc.symm.trans hptc')
      obtain rfl : pm = pm' := Option.some.inj (hpm.symm.trans hpm')
      rfl
    · simpa [withNFuzzEntry] using
        alLookup_insert_self id
          (TestcaseState.mk (some (withNFuzzEntry (pm.depth + 1) last_hash)) (some p))
          s.testcases

theorem c7_witness :
    alLookup 1 (AflState.mk (some 0)
        [(0, TestcaseState.mk (some (TestcaseMeta.mk 2 0 5)) none),
         (1, TestcaseState.mk none none)]).testcases = some (TestcaseState.mk none none) ∧
    (∃ s' : AflState,
      on_add_metadata 9
          (AflState.mk (some 0)
            [(0, TestcaseState.mk (some (TestcaseMeta.mk 2 0 5)) none),
             (1, TestcaseState.mk none none)]) 1 = Except.ok s' ∧
        s'.current = (AflState.mk (some 0)
            [(0, TestcaseState.mk (some (TestcaseMeta.mk 2 0 5)) none),
             (1, TestcaseState.mk none none)]).current ∧
        ∃ d : ℕ,
          ((AflState.mk (some 0)
              [(0, TestcaseState.mk (some (TestcaseMeta.mk 2 0 5)) none),
               (1, TestcaseState.mk none none)]).current = none → d = 0) ∧
          (∀ (p : ℕ) (ptc : TestcaseState) (pm : TestcaseMeta),
            (AflState.mk (some 0)
                [(0, TestcaseState.mk (some (TestcaseMeta.mk 2 0 5)) none),
                 (1, TestcaseState.mk none none)]).current = some p →
            alLookup p (AflState.mk (some 0)
                [(0, TestcaseState.mk (some (TestcaseMeta.mk 2 0 5)) none),
                 (1, TestcaseState.mk none none)]).testcases = some ptc →
            ptc.schedMeta = some pm → d = pm.depth) ∧
          alLookup 1 s'.testcases =
            some (TestcaseState.mk (some (TestcaseMeta.mk (d + 1) 0 9))
              (AflState.mk (some 0)
                [(0, TestcaseState.mk (some (TestcaseMeta.mk 2 0 5)) none),
                 (1, TestcaseState.mk none none)]).current)) := by
  have h2 : ∀ p, (AflState.mk (some 0)
      [(0, TestcaseState.mk (some (TestcaseMeta.mk 2 0 5)) none),
       (1, TestcaseState.mk none none)]).current = some p →
      ∃ ptc : TestcaseState, ∃ pm : TestcaseMeta,
        alLookup p (AflState.mk (some 0)
          [(0, TestcaseState.mk (some (TestcaseMeta.mk 2 0 5)) none),
           (1, TestcaseState.mk none none)]).testcases = some ptc ∧
        ptc.schedMeta = some pm := by
    intro p hp
    have hp0 : p = 0 := (Option.some.inj hp).symm
    subst hp0
    exact ⟨TestcaseState.mk (some (TestcaseMeta.mk 2 0 5)) none, TestcaseMeta.mk 2 0 5,
      by decide, rfl⟩
  exact ⟨by decide,
    c7_depth_parent_link 9
      (AflState.mk (some 0)
        [(0, TestcaseState.mk (some (TestcaseMeta.mk 2 0 5)) none),
         (1, TestcaseState.mk none none)]) 1 (TestcaseState.mk none none) (by decide) h2⟩
